import Mathlib

/-!
Verification of the diakonos service supervisor core against its
natural-language specification.

The Rust sources are shallowly embedded: pure data (unit files, service
records, the registry snapshot) become Lean structures; the stateful
operations (`Service::start`, `Service::stop`, `Service::check_status`,
`ServiceManager::load_service`, `ServiceManager::start_service`,
`ServiceManager::stop_service`, the deferred-restart task body and the
dependency resolver `resolve_deps_recursive`) become pure functions that
take the relevant state and the outcomes of the OS interactions (process
spawns, `try_wait` probes, filesystem reads) as explicit oracle arguments
and return the updated state together with the `Result` value.

The Rust resolver recurses without a fuel argument; the embedding adds an
explicit fuel parameter (the recursion depth is bounded by the number of
registered services, which is proved below, so the added
`FuelExhausted` outcome is unreachable from the actual entry point).
-/

/-- `ServiceState` from `service.rs`. -/
inductive ServiceState where
  | Stopped
  | Starting
  | Running
  | Stopping
  | Failed
deriving DecidableEq, Repr

/-- `RestartPolicy` from `unit.rs`. -/
inductive RestartPolicy where
  | Always
  | OnFailure
  | No
deriving DecidableEq, Repr

/-- `ServiceType` from `unit.rs` (parsed, never acted upon). -/
inductive ServiceType where
  | Simple
  | Forking
  | Oneshot
deriving DecidableEq, Repr

/-- `UnitSection` from `unit.rs`. -/
structure UnitSection where
  description : Option String := none
  after : Option (List String) := none
  requires : Option (List String) := none
  wants : Option (List String) := none
deriving DecidableEq, Repr

/-- `ServiceSection` from `unit.rs`; `working_directory` is kept as a plain
string (paths are never inspected by the core logic). -/
structure ServiceSection where
  service_type : Option ServiceType := none
  exec_start : String
  exec_stop : Option String := none
  restart : Option RestartPolicy := none
  restart_sec : Option Nat := none
  working_directory : Option String := none
  environment : Option (List String) := none
  user : Option String := none
deriving DecidableEq, Repr

/-- `UnitFile` from `unit.rs`. -/
structure UnitFile where
  unit : UnitSection
  service : ServiceSection
  name : String
deriving DecidableEq, Repr

/-- `UnitFile::dependencies`: `requires` then `wants`, order preserved. -/
def UnitFile.dependencies (u : UnitFile) : List String :=
  (u.unit.requires.getD []) ++ (u.unit.wants.getD [])

/-- `UnitFile::ordering_dependencies`. -/
def UnitFile.ordering_dependencies (u : UnitFile) : List String :=
  u.unit.after.getD []

/-- `Service` from `service.rs`.  The child handle
(`Option<Arc<Mutex<Child>>>`) is opaque to the supervisor except for its
presence and its `try_wait` probe, so it is embedded as an `Option Nat`
carrying the OS pid of the tracked child. -/
structure Service where
  unit : UnitFile
  state : ServiceState
  pid : Option Nat
  process : Option Nat
  restart_count : Nat
deriving DecidableEq, Repr

/-- `Service::new`. -/
def Service.new (unit : UnitFile) : Service :=
  { unit := unit
    state := ServiceState.Stopped
    pid := none
    process := none
    restart_count := 0 }

/-- `DiakonosError` from `error.rs`, plus the `FuelExhausted` artifact of
the fueled embedding of the resolver recursion (proved unreachable from
`resolveDependencies`). -/
inductive DiakonosError where
  | ServiceNotFound (name : String)
  | ServiceAlreadyExists (name : String)
  | ParseError (detail : String)
  | StartError (detail : String)
  | StopError (detail : String)
  | DependencyCycle
  | DependencyNotMet (name : String)
  | IoError (detail : String)
  | ProcessError (detail : String)
  | FuelExhausted
deriving DecidableEq, Repr

/-- Accumulator-based whitespace splitter over the character list (`acc`
holds the current token reversed). -/
def splitWsAux : List Char → List Char → List String
  | [], acc => if acc = [] then [] else [String.mk acc.reverse]
  | c :: cs, acc =>
      if c.isWhitespace then
        if acc = [] then splitWsAux cs []
        else String.mk acc.reverse :: splitWsAux cs []
      else splitWsAux cs (c :: acc)

/-- `exec_start.split_whitespace().collect()`: maximal runs of
non-whitespace characters, so no empty tokens. -/
def tokenize (s : String) : List String :=
  splitWsAux s.data []

/-- Outcome of `Command::spawn` for a given token list: the child pid on
success, or the OS error message. -/
def SpawnOracle : Type := List String → Except String Nat

/-- `Service::start` from `service.rs`.  The record mutations happen in
source order: the `Starting` transition precedes tokenisation and spawn,
so the error returns leave the record in `Starting`. -/
def Service.start (sp : SpawnOracle) (s : Service) : Service × Except DiakonosError Unit :=
  if s.state = ServiceState.Running then (s, Except.ok ())
  else
    let s1 : Service := { s with state := ServiceState.Starting }
    let parts := tokenize s1.unit.service.exec_start
    if parts = [] then (s1, Except.error (DiakonosError.StartError "Empty ExecStart"))
    else
      match sp parts with
      | Except.error e => (s1, Except.error (DiakonosError.StartError e))
      | Except.ok childId =>
          ({ s1 with
              pid := some childId
              process := some childId
              state := ServiceState.Running }, Except.ok ())

/-- `Service::stop` from `service.rs`.  The `exec_stop` spawn and the
SIGTERM/SIGKILL escalation touch only the OS; their failures are logged
and ignored, so the record-level effect is exactly: early return when
already `Stopped`, otherwise pass through `Stopping` and finish with
`state = Stopped`, `pid`/`process` cleared, returning `Ok`. -/
def Service.stop (s : Service) : Service × Except DiakonosError Unit :=
  if s.state = ServiceState.Stopped then (s, Except.ok ())
  else
    let s1 : Service := { s with state := ServiceState.Stopping }
    ({ s1 with
        pid := none
        process := none
        state := ServiceState.Stopped }, Except.ok ())

/-- Outcome of `child.try_wait()` on the tracked child: exited with a
success flag, still running, or a probe error. -/
inductive TryWait where
  | exited (success : Bool)
  | stillRunning
  | probeErr (msg : String)
deriving DecidableEq, Repr

/-- `Service::check_status` from `service.rs`: with a child handle present,
observe the `try_wait` outcome; the source clears `pid` on both exit
branches and on probe error, reaffirms `Running` when still alive, and
never clears `process`.  Without a handle the record is untouched.
Returns the updated record and the returned `self.state`. -/
def Service.check_status (tw : TryWait) (s : Service) : Service × ServiceState :=
  match s.process with
  | some _ =>
      match tw with
      | TryWait.exited success =>
          if success then
            let s' : Service := { s with state := ServiceState.Stopped, pid := none }
            (s', s'.state)
          else
            let s' : Service := { s with state := ServiceState.Failed, pid := none }
            (s', s'.state)
      | TryWait.stillRunning =>
          let s' : Service := { s with state := ServiceState.Running }
          (s', s'.state)
      | TryWait.probeErr _ =>
          let s' : Service := { s with state := ServiceState.Failed, pid := none }
          (s', s'.state)
  | none => (s, s.state)

/-- `Service::should_restart`. -/
def Service.should_restart (s : Service) : Bool :=
  match s.unit.service.restart.getD RestartPolicy.No with
  | RestartPolicy.Always => true
  | RestartPolicy.OnFailure => s.state = ServiceState.Failed
  | RestartPolicy.No => false

/-- `Service::get_restart_delay` (in seconds). -/
def Service.get_restart_delay (s : Service) : Nat :=
  s.unit.service.restart_sec.getD 5

/-- The registry: `HashMap<String, Service>` embedded as an association
list with unique keys maintained by `loadService` (first-match lookup). -/
abbrev Registry : Type := List (String × Service)

/-- `services.get(name)` (first matching binding). -/
def lookupS : Registry → String → Option Service
  | [], _ => none
  | (k, v) :: rest, n => if k = n then some v else lookupS rest n

/-- In-place mutation of the binding for `n` (as through `get_mut`). -/
def updateS : Registry → String → Service → Registry
  | [], _, _ => []
  | (k, v) :: rest, n, v' => if k = n then (k, v') :: rest else (k, v) :: updateS rest n v'

/-- The key list of the registry. -/
def keysOf (reg : Registry) : List String := reg.map Prod.fst

/-- `dep.strip_suffix(".service").unwrap_or(&dep)`: drop a trailing
`.service` when present (the suffix is 8 characters long). -/
def stripService (dep : String) : String :=
  if ".service".data.isSuffixOf dep.data then
    String.mk (dep.data.take (dep.data.length - 8))
  else dep

/-- `if !resolved.contains(&name) { resolved.push(name) }`. -/
def pushUnique (l : List String) (x : String) : List String :=
  if x ∈ l then l else l ++ [x]

/-- The activation-dependency names of `n` as the resolver looks them up:
`unit.dependencies()` with the `.service` suffix stripped; empty when `n`
is not registered. -/
def depsOf (reg : Registry) (n : String) : List String :=
  match lookupS reg n with
  | some svc => svc.unit.dependencies.map stripService
  | none => []

/-- The `for dep in deps` loop body of `resolve_deps_recursive`,
parametric in the recursive call `nodeF` (which is instantiated with the
resolver at the next smaller fuel).  A dep already in `resolved` is
skipped; a registered dep is recursed into; an unregistered dep fails
with `DependencyNotMet`. -/
def resolveListAux (reg : Registry)
    (nodeF : String → List String → List String →
      Except DiakonosError (List String × List String)) :
    List String → List String → List String →
      Except DiakonosError (List String × List String)
  | [], resolved, visited => Except.ok (resolved, visited)
  | dep :: rest, resolved, visited =>
      let depName := stripService dep
      if depName ∈ resolved then resolveListAux reg nodeF rest resolved visited
      else
        match lookupS reg depName with
        | some _ =>
            match nodeF depName resolved visited with
            | Except.error e => Except.error e
            | Except.ok (r1, v1) => resolveListAux reg nodeF rest r1 v1
        | none => Except.error (DiakonosError.DependencyNotMet depName)

/-- `resolve_deps_recursive` from `manager.rs`: fail on a visited name,
mark the name visited, walk its dependency list, then append the name to
`resolved` if absent.  The fuel argument is the embedding artifact; the
Rust code recurses directly. -/
def resolveNode (reg : Registry) : Nat → String → List String → List String →
    Except DiakonosError (List String × List String)
  | 0, _, _, _ => Except.error DiakonosError.FuelExhausted
  | fuel + 1, name, resolved, visited =>
      if name ∈ visited then Except.error DiakonosError.DependencyCycle
      else
        match lookupS reg name with
        | some svc =>
            match resolveListAux reg (resolveNode reg fuel)
                svc.unit.dependencies resolved (name :: visited) with
            | Except.error e => Except.error e
            | Except.ok (r1, v1) => Except.ok (pushUnique r1 name, v1)
        | none => Except.ok (pushUnique resolved name, name :: visited)
termination_by structural fuel => fuel

/-- `ServiceManager::resolve_dependencies`: check the target is
registered, then run the recursion on empty `resolved`/`visited` state.
The fuel `reg.length + 1` is proved sufficient below. -/
def resolveDependencies (reg : Registry) (name : String) :
    Except DiakonosError (List String) :=
  match lookupS reg name with
  | none => Except.error (DiakonosError.ServiceNotFound name)
  | some _ =>
      match resolveNode reg (reg.length + 1) name [] [] with
      | Except.error e => Except.error e
      | Except.ok (resolved, _) => Except.ok resolved

/-- The activation-dependency edge relation of the registry snapshot:
`edge reg a b` holds when `b` is among the (suffix-stripped) dependency
names of the registered service `a`. -/
def edge (reg : Registry) (a b : String) : Prop := b ∈ depsOf reg a

instance (reg : Registry) (a b : String) : Decidable (edge reg a b) :=
  inferInstanceAs (Decidable (b ∈ depsOf reg a))

/-- Reachability along activation-dependency edges. -/
def Reach (reg : Registry) : String → String → Prop :=
  Relation.ReflTransGen (edge reg)

/-- Every dependency of every registered service is itself registered. -/
def GlobalClosed (reg : Registry) : Prop :=
  ∀ p ∈ reg, ∀ d ∈ depsOf reg p.1, (lookupS reg d).isSome = true

instance (reg : Registry) : Decidable (GlobalClosed reg) := by
  unfold GlobalClosed
  exact inferInstance

/-- Filesystem-and-parser oracle for `load_service`: `none` when
`{name}.service` does not exist; `some (Except.error ...)` when the file
exists but reading or TOML-parsing fails (already mapped to the
corresponding `DiakonosError`); `some (Except.ok unit)` on success. -/
def FsOracle : Type := String → Option (Except DiakonosError UnitFile)

/-- `ServiceManager::load_service`: existence check, parse, duplicate
check, then insertion of `Service::new(unit)`. -/
def loadService (fs : FsOracle) (reg : Registry) (name : String) :
    Registry × Except DiakonosError Unit :=
  match fs name with
  | none => (reg, Except.error (DiakonosError.ServiceNotFound name))
  | some (Except.error e) => (reg, Except.error e)
  | some (Except.ok unit) =>
      if (lookupS reg name).isSome then
        (reg, Except.error (DiakonosError.ServiceAlreadyExists name))
      else ((name, Service.new unit) :: reg, Except.ok ())

/-- `ServiceManager::start_service_internal`: unknown names fail with
`ServiceNotFound`; a `Running` record is returned untouched; otherwise
`Service::start` runs and its record mutations persist in the registry
even when it returns an error (the Rust code mutates through `get_mut`). -/
def startServiceInternal (sp : SpawnOracle) (reg : Registry) (name : String) :
    Registry × Except DiakonosError Unit :=
  match lookupS reg name with
  | none => (reg, Except.error (DiakonosError.ServiceNotFound name))
  | some svc =>
      if svc.state = ServiceState.Running then (reg, Except.ok ())
      else
        let res := Service.start sp svc
        (updateS reg name res.1, res.2)

/-- The `for dep in deps` loop of `ServiceManager::start_service` followed
by the final `start_service_internal(name)`: dependencies equal to the
target are skipped, the first failing dependency aborts the loop. -/
def startList (sp : SpawnOracle) : List String → String → Registry →
    Registry × Except DiakonosError Unit
  | [], name, reg => startServiceInternal sp reg name
  | dep :: rest, name, reg =>
      if dep = name then startList sp rest name reg
      else
        match startServiceInternal sp reg dep with
        | (reg', Except.ok _) => startList sp rest name reg'
        | (reg', Except.error e) => (reg', Except.error e)

/-- `ServiceManager::start_service`: resolve dependencies first (a pure
read of the registry snapshot); on resolver failure return the error with
the registry untouched, otherwise start the resolved list in order. -/
def startService (sp : SpawnOracle) (reg : Registry) (name : String) :
    Registry × Except DiakonosError Unit :=
  match resolveDependencies reg name with
  | Except.error e => (reg, Except.error e)
  | Except.ok deps => startList sp deps name reg

/-- `ServiceManager::stop_service`. -/
def stopService (reg : Registry) (name : String) :
    Registry × Except DiakonosError Unit :=
  match lookupS reg name with
  | none => (reg, Except.error (DiakonosError.ServiceNotFound name))
  | some svc =>
      let res := Service.stop svc
      (updateS reg name res.1, res.2)

/-- The body of the deferred-restart task spawned by
`ServiceManager::supervise` once it wakes and re-acquires the lock: re-read
the record by name and, when present, invoke `Service::start` on it
unconditionally (errors are logged and dropped). -/
def deferredRestart (sp : SpawnOracle) (reg : Registry) (name : String) : Registry :=
  match lookupS reg name with
  | none => reg
  | some svc => updateS reg name (Service.start sp svc).1

/-! ### Registry lookup and update lemmas -/

theorem lookupS_mem {reg : Registry} {n : String} {v : Service}
    (h : lookupS reg n = some v) : (n, v) ∈ reg := by
  induction reg with
  | nil => simp [lookupS] at h
  | cons p rest ih =>
      obtain ⟨k, w⟩ := p
      by_cases hk : k = n
      · subst hk
        simp [lookupS] at h
        subst h
        exact List.mem_cons_self _ _
      · simp [lookupS, hk] at h
        exact List.mem_cons_of_mem _ (ih h)

theorem lookupS_isSome_of_mem_keys {reg : Registry} {n : String}
    (h : lookupS reg n = some v) : n ∈ keysOf reg := by
  have := lookupS_mem h
  exact List.mem_map.mpr ⟨(n, v), this, rfl⟩

theorem lookupS_updateS_self {reg : Registry} {n : String} {v v' : Service}
    (h : lookupS reg n = some v) : lookupS (updateS reg n v') n = some v' := by
  induction reg with
  | nil => simp [lookupS] at h
  | cons p rest ih =>
      obtain ⟨k, w⟩ := p
      by_cases hk : k = n
      · simp [updateS, hk, lookupS]
      · simp [lookupS, hk] at h
        simp [updateS, hk, lookupS, ih h]

theorem lookupS_updateS_ne {reg : Registry} {n m : String} {v' : Service}
    (h : m ≠ n) : lookupS (updateS reg n v') m = lookupS reg m := by
  induction reg with
  | nil => simp [updateS]
  | cons p rest ih =>
      obtain ⟨k, w⟩ := p
      by_cases hk : k = n
      · subst hk
        have hkm : ¬ (k = m) := fun hh => h hh.symm
        simp [updateS, lookupS, hkm]
      · simp only [updateS, if_neg hk, lookupS]
        by_cases hkm : k = m
        · simp [hkm]
        · simp [hkm, ih]

/-! ### pushUnique lemmas -/

theorem pushUnique_subset (l : List String) (x : String) : l ⊆ pushUnique l x := by
  unfold pushUnique
  split
  · exact fun _ h => h
  · exact fun _ h => List.mem_append.mpr (Or.inl h)

theorem mem_pushUnique_self (l : List String) (x : String) : x ∈ pushUnique l x := by
  unfold pushUnique
  split
  · assumption
  · simp

theorem mem_pushUnique {l : List String} {x y : String}
    (h : y ∈ pushUnique l x) : y ∈ l ∨ y = x := by
  unfold pushUnique at h
  split at h
  · exact Or.inl h
  · rcases List.mem_append.mp h with h1 | h1
    · exact Or.inl h1
    · simp at h1
      exact Or.inr h1

theorem pushUnique_nodup {l : List String} (x : String)
    (h : l.Nodup) : (pushUnique l x).Nodup := by
  unfold pushUnique
  split
  · exact h
  · simp [List.nodup_append, h]
    intro hx
    simp_all

/-! ### Filter-counting lemmas for the fuel bound -/

theorem filter_imp_length {p q : String → Bool} (l : List String)
    (h : ∀ a, p a = true → q a = true) :
    (l.filter p).length ≤ (l.filter q).length := by
  induction l with
  | nil => simp
  | cons a rest ih =>
      by_cases hp : p a = true
      · simp [List.filter, hp, h a hp]
        omega
      · simp only [List.filter, Bool.not_eq_true] at hp
        simp [List.filter, hp]
        by_cases hq : q a = true
        · simp [hq]; omega
        · simp only [Bool.not_eq_true] at hq
          simp [hq]; exact ih

theorem filter_shrink {keys vis : List String} {name : String}
    (hmem : name ∈ keys) (hnv : name ∉ vis) :
    (keys.filter (fun k => decide (k ∉ name :: vis))).length + 1 ≤
      (keys.filter (fun k => decide (k ∉ vis))).length := by
  induction keys with
  | nil => simp at hmem
  | cons a rest ih =>
      by_cases ha : a = name
      · subst ha
        have h1 : (decide (a ∉ a :: vis)) = false := by simp
        have h2 : (decide (a ∉ vis)) = true := by simpa using hnv
        simp only [List.filter, h1, h2]
        have hle : (rest.filter (fun k => decide (k ∉ a :: vis))).length ≤
            (rest.filter (fun k => decide (k ∉ vis))).length :=
          filter_imp_length rest
            (by intro b hb; simp at hb ⊢; exact hb.2)
        simp only [List.length_cons]
        omega
      · have hmem' : name ∈ rest := by
          rcases List.mem_cons.mp hmem with h | h
          · exact absurd h.symm ha
          · exact h
        by_cases hav : a ∈ vis
        · have h1 : (decide (a ∉ name :: vis)) = false := by simp [hav]
          have h2 : (decide (a ∉ vis)) = false := by simp [hav]
          simpa [List.filter, h1, h2] using ih hmem'
        · have h1 : (decide (a ∉ name :: vis)) = true := by
            simp [hav]
            exact fun hh => absurd hh ha
          have h2 : (decide (a ∉ vis)) = true := by simpa using hav
          simp only [List.filter, h1, h2, List.length_cons]
          have := ih hmem'
          omega

/-! ### The dependency-ordering invariant on the `resolved` list

`DepsBeforeRev reg m` reads the resolved list back-to-front (`m` is the
reverse of `resolved`) and states that every element's dependencies occur
among the strictly earlier (deeper) entries. -/

def DepsBeforeRev (reg : Registry) : List String → Prop
  | [] => True
  | x :: rest => (∀ d ∈ depsOf reg x, d ∈ rest) ∧ DepsBeforeRev reg rest

theorem depsBeforeRev_closed {reg : Registry} :
    ∀ {m : List String}, DepsBeforeRev reg m →
      ∀ x ∈ m, ∀ d ∈ depsOf reg x, d ∈ m := by
  intro m
  induction m with
  | nil => intro _ x hx; simp at hx
  | cons a rest ih =>
      intro h x hx d hd
      rcases List.mem_cons.mp hx with hxa | hxr
      · subst hxa
        exact List.mem_cons_of_mem _ (h.1 d hd)
      · exact List.mem_cons_of_mem _ (ih h.2 x hxr d hd)

theorem depsBeforeRev_push {reg : Registry} {res : List String} {name : String}
    (h : DepsBeforeRev reg res.reverse)
    (hdeps : ∀ d ∈ depsOf reg name, d ∈ res) :
    DepsBeforeRev reg (pushUnique res name).reverse := by
  unfold pushUnique
  split
  · exact h
  · rw [List.reverse_append]
    simp only [List.reverse_cons, List.reverse_nil, List.nil_append,
      List.singleton_append]
    exact ⟨fun d hd => List.mem_reverse.mpr (hdeps d hd), h⟩

/-- In an ordered resolved list, each dependency of a member sits at a
strictly smaller index. -/
theorem depsBeforeRev_indexOf {reg : Registry} :
    ∀ {m : List String}, DepsBeforeRev reg m → m.reverse.Nodup →
      ∀ x ∈ m.reverse, ∀ d ∈ depsOf reg x,
        m.reverse.indexOf d < m.reverse.indexOf x := by
  intro m
  induction m with
  | nil => intro _ _ x hx; simp at hx
  | cons a rest ih =>
      intro h hnd x hx d hd
      simp only [List.reverse_cons] at hx hnd ⊢
      have hnd' : rest.reverse.Nodup := (List.nodup_append.mp hnd).1
      have hna : a ∉ rest.reverse := by
        have hdisj := (List.nodup_append.mp hnd).2.2
        intro hmem
        exact hdisj hmem (by simp)
      rcases List.mem_append.mp hx with hxr | hxa
      · have hdr : d ∈ rest.reverse :=
          List.mem_reverse.mpr
            (depsBeforeRev_closed h.2 x (List.mem_reverse.mp hxr) d hd)
        rw [List.indexOf_append_of_mem hxr, List.indexOf_append_of_mem hdr]
        exact ih h.2 hnd' x hxr d hd
      · have hxa' : x = a := by simpa using hxa
        subst hxa'
        have hdr : d ∈ rest.reverse := List.mem_reverse.mpr (h.1 d hd)
        rw [List.indexOf_append_of_mem hdr,
          List.indexOf_append_of_not_mem hna]
        simp only [List.indexOf_cons_self, Nat.add_zero]
        exact List.indexOf_lt_length.mpr hdr

/-- Along a dependency-ordered, dependency-closed list, indices strictly
decrease under the transitive edge relation. -/
theorem transGen_indexOf_lt {reg : Registry} {l : List String}
    (hcl : ∀ x ∈ l, ∀ d ∈ depsOf reg x, d ∈ l)
    (hord : ∀ x ∈ l, ∀ d ∈ depsOf reg x, l.indexOf d < l.indexOf x) :
    ∀ {x y : String}, Relation.TransGen (edge reg) x y → x ∈ l →
      y ∈ l ∧ l.indexOf y < l.indexOf x := by
  intro x y h
  induction h with
  | single hxy =>
      intro hx
      exact ⟨hcl x hx _ hxy, hord x hx _ hxy⟩
  | tail _ hby ih =>
      intro hx
      rcases ih hx with ⟨hb, hlt⟩
      refine ⟨hcl _ hb _ hby, lt_trans (hord _ hb _ hby) hlt⟩

/-- A dependency-ordered, dependency-closed list admits no cycle through
any of its members. -/
theorem no_cycle_of_ordered {reg : Registry} {l : List String} {c : String}
    (hcl : ∀ x ∈ l, ∀ d ∈ depsOf reg x, d ∈ l)
    (hord : ∀ x ∈ l, ∀ d ∈ depsOf reg x, l.indexOf d < l.indexOf x)
    (hcyc : Relation.TransGen (edge reg) c c) (hc : c ∈ l) : False := by
  have := (transGen_indexOf_lt hcl hord hcyc hc).2
  exact lt_irrefl _ this

/-! ### Invariants of a successful resolver run -/

/-- What a successful `resolveNode reg fuel name res vis = ok (res', vis')`
run guarantees. -/
structure NodeOk (reg : Registry) (name : String)
    (res vis res' vis' : List String) : Prop where
  resSub : res ⊆ res'
  visSub : vis ⊆ vis'
  memName : name ∈ res'
  reachNew : ∀ x ∈ res', x ∈ res ∨ Reach reg name x
  presentNew : ∀ x ∈ res', x ∈ res ∨ x = name ∨ (lookupS reg x).isSome = true
  nodupPres : res.Nodup → res'.Nodup
  ordPres : DepsBeforeRev reg res.reverse → DepsBeforeRev reg res'.reverse
  visNew : ∀ v ∈ vis', v ∈ vis ∨ v ∈ res'

/-- What a successful dependency-loop run guarantees. -/
structure ListOk (reg : Registry) (deps : List String)
    (res vis res' vis' : List String) : Prop where
  resSub : res ⊆ res'
  visSub : vis ⊆ vis'
  depsIn : ∀ d ∈ deps, stripService d ∈ res'
  reachNew : ∀ x ∈ res', x ∈ res ∨ ∃ d ∈ deps, Reach reg (stripService d) x
  presentNew : ∀ x ∈ res', x ∈ res ∨ (lookupS reg x).isSome = true
  nodupPres : res.Nodup → res'.Nodup
  ordPres : DepsBeforeRev reg res.reverse → DepsBeforeRev reg res'.reverse
  visNew : ∀ v ∈ vis', v ∈ vis ∨ v ∈ res'

theorem listOk_of_nodeOk {reg : Registry}
    {nodeF : String → List String → List String →
      Except DiakonosError (List String × List String)}
    (hnode : ∀ name res vis res' vis',
      nodeF name res vis = Except.ok (res', vis') →
      NodeOk reg name res vis res' vis') :
    ∀ (deps res vis res' vis' : List String),
      resolveListAux reg nodeF deps res vis = Except.ok (res', vis') →
      ListOk reg deps res vis res' vis' := by
  intro deps
  induction deps with
  | nil =>
      intro res vis res' vis' h
      simp only [resolveListAux] at h
      obtain ⟨h1, h2⟩ : res = res' ∧ vis = vis' := by
        constructor <;> injection h with h' <;> simp_all
      subst h1; subst h2
      exact
        { resSub := fun _ hx => hx
          visSub := fun _ hx => hx
          depsIn := by intro d hd; simp at hd
          reachNew := fun x hx => Or.inl hx
          presentNew := fun x hx => Or.inl hx
          nodupPres := id
          ordPres := id
          visNew := fun v hv => Or.inl hv }
  | cons dep rest ih =>
      intro res vis res' vis' h
      simp only [resolveListAux] at h
      by_cases hmem : stripService dep ∈ res
      · rw [if_pos hmem] at h
        have L := ih res vis res' vis' h
        exact
          { resSub := L.resSub
            visSub := L.visSub
            depsIn := by
              intro d hd
              rcases List.mem_cons.mp hd with hdd | hdr
              · subst hdd; exact L.resSub hmem
              · exact L.depsIn d hdr
            reachNew := by
              intro x hx
              rcases L.reachNew x hx with h1 | ⟨d, hd, hr⟩
              · exact Or.inl h1
              · exact Or.inr ⟨d, List.mem_cons_of_mem _ hd, hr⟩
            presentNew := L.presentNew
            nodupPres := L.nodupPres
            ordPres := L.ordPres
            visNew := L.visNew }
      · rw [if_neg hmem] at h
        cases hl : lookupS reg (stripService dep) with
        | none => simp only [hl] at h; exact Except.noConfusion h
        | some svc =>
            simp only [hl] at h
            cases hn : nodeF (stripService dep) res vis with
            | error e => simp only [hn] at h; exact Except.noConfusion h
            | ok p =>
                obtain ⟨r1, v1⟩ := p
                simp only [hn] at h
                have N := hnode _ _ _ _ _ hn
                have L := ih r1 v1 res' vis' h
                refine
                  { resSub := fun x hx => L.resSub (N.resSub hx)
                    visSub := fun v hv => L.visSub (N.visSub hv)
                    depsIn := ?_
                    reachNew := ?_
                    presentNew := ?_
                    nodupPres := fun hnd => L.nodupPres (N.nodupPres hnd)
                    ordPres := fun ho => L.ordPres (N.ordPres ho)
                    visNew := ?_ }
                · intro d hd
                  rcases List.mem_cons.mp hd with hdd | hdr
                  · subst hdd; exact L.resSub N.memName
                  · exact L.depsIn d hdr
                · intro x hx
                  rcases L.reachNew x hx with h1 | ⟨d, hd, hr⟩
                  · rcases N.reachNew x h1 with h2 | h2
                    · exact Or.inl h2
                    · exact Or.inr ⟨dep, List.mem_cons_self _ _, h2⟩
                  · exact Or.inr ⟨d, List.mem_cons_of_mem _ hd, hr⟩
                · intro x hx
                  rcases L.presentNew x hx with h1 | h1
                  · rcases N.presentNew x h1 with h2 | h2 | h2
                    · exact Or.inl h2
                    · subst h2; exact Or.inr (by simp [hl])
                    · exact Or.inr h2
                  · exact Or.inr h1
                · intro v hv
                  rcases L.visNew v hv with h1 | h1
                  · rcases N.visNew v h1 with h2 | h2
                    · exact Or.inl h2
                    · exact Or.inr (L.resSub h2)
                  · exact Or.inr h1

theorem nodeOk {reg : Registry} :
    ∀ (fuel : Nat) (name : String) (res vis res' vis' : List String),
      resolveNode reg fuel name res vis = Except.ok (res', vis') →
      NodeOk reg name res vis res' vis' := by
  intro fuel
  induction fuel with
  | zero => intro name res vis res' vis' h; simp [resolveNode] at h
  | succ fuel ih =>
      intro name res vis res' vis' h
      simp only [resolveNode] at h
      by_cases hv : name ∈ vis
      · rw [if_pos hv] at h; cases h
      · rw [if_neg hv] at h
        cases hl : lookupS reg name with
        | none =>
            simp only [hl] at h
            obtain ⟨h1, h2⟩ : pushUnique res name = res' ∧ name :: vis = vis' := by
              constructor <;> injection h with h' <;> simp_all
            subst h1; subst h2
            exact
              { resSub := pushUnique_subset res name
                visSub := fun v hv' => List.mem_cons_of_mem _ hv'
                memName := mem_pushUnique_self res name
                reachNew := by
                  intro x hx
                  rcases mem_pushUnique hx with h1 | h1
                  · exact Or.inl h1
                  · subst h1; exact Or.inr Relation.ReflTransGen.refl
                presentNew := by
                  intro x hx
                  rcases mem_pushUnique hx with h1 | h1
                  · exact Or.inl h1
                  · exact Or.inr (Or.inl h1)
                nodupPres := pushUnique_nodup name
                ordPres := fun ho =>
                  depsBeforeRev_push ho (by simp [depsOf, hl])
                visNew := by
                  intro v hv'
                  rcases List.mem_cons.mp hv' with h1 | h1
                  · subst h1; exact Or.inr (mem_pushUnique_self res v)
                  · exact Or.inl h1 }
        | some svc =>
            simp only [hl] at h
            cases hla : resolveListAux reg (resolveNode reg fuel)
                svc.unit.dependencies res (name :: vis) with
            | error e => simp only [hla] at h; exact Except.noConfusion h
            | ok p =>
                obtain ⟨r1, v1⟩ := p
                simp only [hla] at h
                obtain ⟨h1, h2⟩ : pushUnique r1 name = res' ∧ v1 = vis' := by
                  constructor <;> injection h with h' <;> simp_all
                subst h1; subst h2
                have L := listOk_of_nodeOk (fun n r v r' v' hh => ih n r v r' v' hh)
                  svc.unit.dependencies res (name :: vis) r1 v1 hla
                have hdeps : ∀ d ∈ depsOf reg name, d ∈ r1 := by
                  intro d hd
                  simp only [depsOf, hl] at hd
                  rcases List.mem_map.mp hd with ⟨d0, hd0, rfl⟩
                  exact L.depsIn d0 hd0
                refine
                  { resSub := fun x hx => pushUnique_subset r1 name (L.resSub hx)
                    visSub := fun v hv' => L.visSub (List.mem_cons_of_mem _ hv')
                    memName := mem_pushUnique_self r1 name
                    reachNew := ?_
                    presentNew := ?_
                    nodupPres := fun hnd => pushUnique_nodup name (L.nodupPres hnd)
                    ordPres := fun ho => depsBeforeRev_push (L.ordPres ho) hdeps
                    visNew := ?_ }
                · intro x hx
                  rcases mem_pushUnique hx with h1 | h1
                  · rcases L.reachNew x h1 with h2 | ⟨d, hd, hr⟩
                    · exact Or.inl h2
                    · refine Or.inr (Relation.ReflTransGen.head ?_ hr)
                      simp only [edge, depsOf, hl]
                      exact List.mem_map_of_mem _ hd
                  · subst h1; exact Or.inr Relation.ReflTransGen.refl
                · intro x hx
                  rcases mem_pushUnique hx with h1 | h1
                  · rcases L.presentNew x h1 with h2 | h2
                    · exact Or.inl h2
                    · exact Or.inr (Or.inr h2)
                  · exact Or.inr (Or.inl h1)
                · intro v hv'
                  rcases L.visNew v hv' with h1 | h1
                  · rcases List.mem_cons.mp h1 with h2 | h2
                    · subst h2; exact Or.inr (mem_pushUnique_self r1 v)
                    · exact Or.inl h2
                  · exact Or.inr (pushUnique_subset r1 name h1)

/-! ### Error classification for resolver failures -/

theorem listErr_of_nodeErr {reg : Registry}
    {nodeF : String → List String → List String →
      Except DiakonosError (List String × List String)}
    (hnode : ∀ name res vis e, nodeF name res vis = Except.error e →
      e = DiakonosError.FuelExhausted ∨ e = DiakonosError.DependencyCycle ∨
      ∃ x, e = DiakonosError.DependencyNotMet x ∧ lookupS reg x = none ∧
        Reach reg name x) :
    ∀ (deps res vis : List String) (e : DiakonosError),
      resolveListAux reg nodeF deps res vis = Except.error e →
      e = DiakonosError.FuelExhausted ∨ e = DiakonosError.DependencyCycle ∨
      ∃ x, e = DiakonosError.DependencyNotMet x ∧ lookupS reg x = none ∧
        ∃ d ∈ deps, Reach reg (stripService d) x := by
  intro deps
  induction deps with
  | nil => intro res vis e h; exact Except.noConfusion h
  | cons dep rest ih =>
      intro res vis e h
      simp only [resolveListAux] at h
      by_cases hmem : stripService dep ∈ res
      · rw [if_pos hmem] at h
        rcases ih res vis e h with h1 | h1 | ⟨x, hx, hlx, d, hd, hr⟩
        · exact Or.inl h1
        · exact Or.inr (Or.inl h1)
        · exact Or.inr (Or.inr ⟨x, hx, hlx, d, List.mem_cons_of_mem _ hd, hr⟩)
      · rw [if_neg hmem] at h
        cases hl : lookupS reg (stripService dep) with
        | none =>
            simp only [hl] at h
            injection h with h'
            refine Or.inr (Or.inr ⟨stripService dep, h'.symm, hl,
              dep, List.mem_cons_self _ _, Relation.ReflTransGen.refl⟩)
        | some svc =>
            simp only [hl] at h
            cases hn : nodeF (stripService dep) res vis with
            | error e' =>
                simp only [hn] at h
                injection h with h'
                subst h'
                rcases hnode _ _ _ _ hn with h1 | h1 | ⟨x, hx, hlx, hr⟩
                · exact Or.inl h1
                · exact Or.inr (Or.inl h1)
                · exact Or.inr (Or.inr ⟨x, hx, hlx,
                    dep, List.mem_cons_self _ _, hr⟩)
            | ok p =>
                obtain ⟨r1, v1⟩ := p
                simp only [hn] at h
                rcases ih r1 v1 e h with h1 | h1 | ⟨x, hx, hlx, d, hd, hr⟩
                · exact Or.inl h1
                · exact Or.inr (Or.inl h1)
                · exact Or.inr (Or.inr ⟨x, hx, hlx,
                    d, List.mem_cons_of_mem _ hd, hr⟩)

theorem nodeErr {reg : Registry} :
    ∀ (fuel : Nat) (name : String) (res vis : List String) (e : DiakonosError),
      resolveNode reg fuel name res vis = Except.error e →
      e = DiakonosError.FuelExhausted ∨ e = DiakonosError.DependencyCycle ∨
      ∃ x, e = DiakonosError.DependencyNotMet x ∧ lookupS reg x = none ∧
        Reach reg name x := by
  intro fuel
  induction fuel with
  | zero =>
      intro name res vis e h
      simp only [resolveNode] at h
      injection h with h'
      exact Or.inl h'.symm
  | succ fuel ih =>
      intro name res vis e h
      simp only [resolveNode] at h
      by_cases hv : name ∈ vis
      · rw [if_pos hv] at h
        injection h with h'
        exact Or.inr (Or.inl h'.symm)
      · rw [if_neg hv] at h
        cases hl : lookupS reg name with
        | none => simp only [hl] at h; exact Except.noConfusion h
        | some svc =>
            simp only [hl] at h
            cases hla : resolveListAux reg (resolveNode reg fuel)
                svc.unit.dependencies res (name :: vis) with
            | error e' =>
                simp only [hla] at h
                injection h with h'
                subst h'
                rcases listErr_of_nodeErr (fun n r v e'' hh => ih n r v e'' hh)
                    svc.unit.dependencies res (name :: vis) e' hla with
                  h1 | h1 | ⟨x, hx, hlx, d, hd, hr⟩
                · exact Or.inl h1
                · exact Or.inr (Or.inl h1)
                · refine Or.inr (Or.inr ⟨x, hx, hlx,
                    Relation.ReflTransGen.head ?_ hr⟩)
                  simp only [edge, depsOf, hl]
                  exact List.mem_map_of_mem _ hd
            | ok p =>
                obtain ⟨r1, v1⟩ := p
                simp only [hla] at h
                exact Except.noConfusion h

/-! ### Soundness of the cycle error -/

theorem listCyc_of_nodeCyc {reg : Registry}
    {nodeF : String → List String → List String →
      Except DiakonosError (List String × List String)}
    (hnodeOk : ∀ name res vis res' vis',
      nodeF name res vis = Except.ok (res', vis') →
      NodeOk reg name res vis res' vis')
    (hnodeCyc : ∀ name res vis,
      nodeF name res vis = Except.error DiakonosError.DependencyCycle →
      name ∉ res →
      (∀ v ∈ vis, v ∉ res → Relation.TransGen (edge reg) v name) →
      ∃ c, Reach reg name c ∧ Relation.TransGen (edge reg) c c) :
    ∀ (deps res vis : List String),
      resolveListAux reg nodeF deps res vis =
        Except.error DiakonosError.DependencyCycle →
      (∀ d ∈ deps, ∀ v ∈ vis, v ∉ res →
        Relation.TransGen (edge reg) v (stripService d)) →
      ∃ d ∈ deps, ∃ c, Reach reg (stripService d) c ∧
        Relation.TransGen (edge reg) c c := by
  intro deps
  induction deps with
  | nil => intro res vis h; exact Except.noConfusion h
  | cons dep rest ih =>
      intro res vis h hinv
      simp only [resolveListAux] at h
      by_cases hmem : stripService dep ∈ res
      · rw [if_pos hmem] at h
        rcases ih res vis h
            (fun d hd => hinv d (List.mem_cons_of_mem _ hd)) with ⟨d, hd, hc⟩
        exact ⟨d, List.mem_cons_of_mem _ hd, hc⟩
      · rw [if_neg hmem] at h
        cases hl : lookupS reg (stripService dep) with
        | none =>
            simp only [hl] at h
            injection h with h'
            exact DiakonosError.noConfusion h'
        | some svc =>
            simp only [hl] at h
            cases hn : nodeF (stripService dep) res vis with
            | error e' =>
                simp only [hn] at h
                injection h with h'
                subst h'
                rcases hnodeCyc _ _ _ hn hmem
                    (fun v hv hvr => hinv dep (List.mem_cons_self _ _) v hv hvr) with
                  ⟨c, hrc, hcc⟩
                exact ⟨dep, List.mem_cons_self _ _, c, hrc, hcc⟩
            | ok p =>
                obtain ⟨r1, v1⟩ := p
                simp only [hn] at h
                have N := hnodeOk _ _ _ _ _ hn
                have hinv' : ∀ d ∈ rest, ∀ v ∈ v1, v ∉ r1 →
                    Relation.TransGen (edge reg) v (stripService d) := by
                  intro d hd v hv hvr
                  have hvis : v ∈ vis := by
                    rcases N.visNew v hv with h1 | h1
                    · exact h1
                    · exact absurd h1 hvr
                  have hvres : v ∉ res := fun hc' => hvr (N.resSub hc')
                  exact hinv d (List.mem_cons_of_mem _ hd) v hvis hvres
                rcases ih r1 v1 h hinv' with ⟨d, hd, hc⟩
                exact ⟨d, List.mem_cons_of_mem _ hd, hc⟩

theorem nodeCyc {reg : Registry} :
    ∀ (fuel : Nat) (name : String) (res vis : List String),
      resolveNode reg fuel name res vis =
        Except.error DiakonosError.DependencyCycle →
      name ∉ res →
      (∀ v ∈ vis, v ∉ res → Relation.TransGen (edge reg) v name) →
      ∃ c, Reach reg name c ∧ Relation.TransGen (edge reg) c c := by
  intro fuel
  induction fuel with
  | zero =>
      intro name res vis h
      simp only [resolveNode] at h
      injection h with h'
      exact DiakonosError.noConfusion h'
  | succ fuel ih =>
      intro name res vis h hres hinv
      simp only [resolveNode] at h
      by_cases hv : name ∈ vis
      · exact ⟨name, Relation.ReflTransGen.refl, hinv name hv hres⟩
      · rw [if_neg hv] at h
        cases hl : lookupS reg name with
        | none => simp only [hl] at h; exact Except.noConfusion h
        | some svc =>
            simp only [hl] at h
            cases hla : resolveListAux reg (resolveNode reg fuel)
                svc.unit.dependencies res (name :: vis) with
            | error e' =>
                simp only [hla] at h
                injection h with h'
                subst h'
                have hedge : ∀ d ∈ svc.unit.dependencies,
                    edge reg name (stripService d) := by
                  intro d hd
                  simp only [edge, depsOf, hl]
                  exact List.mem_map_of_mem _ hd
                have hinv' : ∀ d ∈ svc.unit.dependencies, ∀ v ∈ name :: vis,
                    v ∉ res → Relation.TransGen (edge reg) v (stripService d) := by
                  intro d hd v hv' hvr
                  rcases List.mem_cons.mp hv' with h1 | h1
                  · subst h1
                    exact Relation.TransGen.single (hedge d hd)
                  · exact Relation.TransGen.tail (hinv v h1 hvr) (hedge d hd)
                rcases listCyc_of_nodeCyc
                    (fun n r v r' v' hh => nodeOk fuel n r v r' v' hh)
                    (fun n r v hh h1 h2 => ih n r v hh h1 h2)
                    svc.unit.dependencies res (name :: vis) hla hinv' with
                  ⟨d, hd, c, hrc, hcc⟩
                exact ⟨c, Relation.ReflTransGen.head (hedge d hd) hrc, hcc⟩
            | ok p =>
                obtain ⟨r1, v1⟩ := p
                simp only [hla] at h
                exact Except.noConfusion h

/-! ### Fuel sufficiency: `FuelExhausted` is unreachable from the entry point -/

theorem listFuel_of_nodeFuel {reg : Registry} {F : Nat}
    {nodeF : String → List String → List String →
      Except DiakonosError (List String × List String)}
    (hnodeOk : ∀ name res vis res' vis',
      nodeF name res vis = Except.ok (res', vis') →
      NodeOk reg name res vis res' vis')
    (hnodeFuel : ∀ name res vis,
      (lookupS reg name).isSome = true →
      ((keysOf reg).filter (fun k => decide (k ∉ vis))).length + 1 ≤ F →
      nodeF name res vis ≠ Except.error DiakonosError.FuelExhausted) :
    ∀ (deps res vis : List String),
      ((keysOf reg).filter (fun k => decide (k ∉ vis))).length + 1 ≤ F →
      resolveListAux reg nodeF deps res vis ≠
        Except.error DiakonosError.FuelExhausted := by
  intro deps
  induction deps with
  | nil => intro res vis _ h; exact Except.noConfusion h
  | cons dep rest ih =>
      intro res vis hb h
      simp only [resolveListAux] at h
      by_cases hmem : stripService dep ∈ res
      · rw [if_pos hmem] at h
        exact ih res vis hb h
      · rw [if_neg hmem] at h
        cases hl : lookupS reg (stripService dep) with
        | none =>
            simp only [hl] at h
            injection h with h'
            exact DiakonosError.noConfusion h'
        | some svc =>
            simp only [hl] at h
            cases hn : nodeF (stripService dep) res vis with
            | error e' =>
                simp only [hn] at h
                injection h with h'
                subst h'
                exact hnodeFuel (stripService dep) res vis (by simp [hl]) hb hn
            | ok p =>
                obtain ⟨r1, v1⟩ := p
                simp only [hn] at h
                have N := hnodeOk _ _ _ _ _ hn
                have hb' : ((keysOf reg).filter
                    (fun k => decide (k ∉ v1))).length + 1 ≤ F := by
                  have hle : ((keysOf reg).filter (fun k => decide (k ∉ v1))).length ≤
                      ((keysOf reg).filter (fun k => decide (k ∉ vis))).length := by
                    refine filter_imp_length (keysOf reg) ?_
                    intro a ha
                    simp only [decide_eq_true_eq] at ha ⊢
                    exact fun hmem' => ha (N.visSub hmem')
                  omega
                exact ih r1 v1 hb' h

theorem nodeFuel {reg : Registry} :
    ∀ (fuel : Nat) (name : String) (res vis : List String),
      (lookupS reg name).isSome = true →
      ((keysOf reg).filter (fun k => decide (k ∉ vis))).length + 1 ≤ fuel →
      resolveNode reg fuel name res vis ≠
        Except.error DiakonosError.FuelExhausted := by
  intro fuel
  induction fuel with
  | zero => intro name res vis _ hb; omega
  | succ fuel ih =>
      intro name res vis hsome hb h
      simp only [resolveNode] at h
      by_cases hv : name ∈ vis
      · rw [if_pos hv] at h
        injection h with h'
        exact DiakonosError.noConfusion h'
      · rw [if_neg hv] at h
        cases hl : lookupS reg name with
        | none => simp [hl] at hsome
        | some svc =>
            simp only [hl] at h
            cases hla : resolveListAux reg (resolveNode reg fuel)
                svc.unit.dependencies res (name :: vis) with
            | error e' =>
                simp only [hla] at h
                injection h with h'
                subst h'
                have hkey : name ∈ keysOf reg := lookupS_isSome_of_mem_keys hl
                have hshrink := filter_shrink hkey hv
                refine listFuel_of_nodeFuel
                  (fun n r v r' v' hh => nodeOk fuel n r v r' v' hh)
                  (fun n r v h1 h2 hh => ih n r v h1 h2 hh)
                  svc.unit.dependencies res (name :: vis) ?_ hla
                omega
            | ok p =>
                obtain ⟨r1, v1⟩ := p
                simp only [hla] at h
                exact Except.noConfusion h

/-! ### Entry-point facts about `resolveDependencies` -/

/-- A successful `resolve_dependencies` run, unpacked: the output extends
the empty state, so every member is reachable from the target, the target
is a member, members are pairwise distinct, the output is
dependency-closed and dependency-ordered, and every member except possibly
the target is registered. -/
theorem resolveDependencies_ok {reg : Registry} {t : String} {out : List String}
    (h : resolveDependencies reg t = Except.ok out) :
    ∃ vis', resolveNode reg (reg.length + 1) t [] [] = Except.ok (out, vis') := by
  unfold resolveDependencies at h
  cases hl : lookupS reg t with
  | none => simp only [hl] at h; exact Except.noConfusion h
  | some svc =>
      simp only [hl] at h
      cases hn : resolveNode reg (reg.length + 1) t [] [] with
      | error e => simp only [hn] at h; exact Except.noConfusion h
      | ok p =>
          obtain ⟨r, v⟩ := p
          simp only [hn] at h
          injection h with h'
          exact ⟨v, by rw [h']⟩

theorem resolveDependencies_err {reg : Registry} {t : String} {e : DiakonosError}
    (h : resolveDependencies reg t = Except.error e) :
    (e = DiakonosError.ServiceNotFound t ∧ lookupS reg t = none) ∨
      ((lookupS reg t).isSome = true ∧
        resolveNode reg (reg.length + 1) t [] [] = Except.error e) := by
  unfold resolveDependencies at h
  cases hl : lookupS reg t with
  | none =>
      simp only [hl] at h
      injection h with h'
      exact Or.inl ⟨h'.symm, rfl⟩
  | some svc =>
      simp only [hl] at h
      cases hn : resolveNode reg (reg.length + 1) t [] [] with
      | error e' =>
          simp only [hn] at h
          injection h with h'
          subst h'
          exact Or.inr ⟨by simp, rfl⟩
      | ok p =>
          obtain ⟨r, v⟩ := p
          simp only [hn] at h
          exact Except.noConfusion h

/-- The entry fuel `reg.length + 1` meets the fuel bound on the empty
visited set. -/
theorem entry_fuel_ok (reg : Registry) :
    ((keysOf reg).filter (fun k => decide (k ∉ ([] : List String)))).length + 1 ≤
      reg.length + 1 := by
  have hfilter : (keysOf reg).filter
      (fun k => decide (k ∉ ([] : List String))) = keysOf reg := by
    apply List.filter_eq_self.mpr
    intro a _
    simp
  rw [hfilter]
  simp [keysOf]

/-- `resolve_dependencies` never reports the fuel artifact. -/
theorem resolveDependencies_no_fuel {reg : Registry} {t : String} :
    resolveDependencies reg t ≠ Except.error DiakonosError.FuelExhausted := by
  intro h
  rcases resolveDependencies_err h with ⟨h1, _⟩ | ⟨hsome, hn⟩
  · exact DiakonosError.noConfusion h1
  · exact nodeFuel (reg.length + 1) t [] [] hsome (entry_fuel_ok reg) hn

/-! ### Consequences of a successful resolution -/

theorem ordered_out {reg : Registry} {out : List String}
    (hrev : DepsBeforeRev reg out.reverse) (hnd : out.Nodup) :
    ∀ x ∈ out, ∀ d ∈ depsOf reg x, out.indexOf d < out.indexOf x := by
  have h := depsBeforeRev_indexOf hrev (by simpa using hnd)
  simpa using h

theorem resolve_ok_props {reg : Registry} {t : String} {out : List String}
    (h : resolveDependencies reg t = Except.ok out) :
    t ∈ out ∧ (∀ x ∈ out, Reach reg t x) ∧ out.Nodup ∧
      (∀ x ∈ out, ∀ d ∈ depsOf reg x, d ∈ out) ∧
      (∀ x ∈ out, ∀ d ∈ depsOf reg x, out.indexOf d < out.indexOf x) ∧
      (∀ x ∈ out, x = t ∨ (lookupS reg x).isSome = true) := by
  rcases resolveDependencies_ok h with ⟨vis', hn⟩
  have N := nodeOk (reg.length + 1) t [] [] out vis' hn
  have hnd : out.Nodup := N.nodupPres List.nodup_nil
  have hrev : DepsBeforeRev reg out.reverse := by
    have : DepsBeforeRev reg (([] : List String).reverse) := by
      simp [DepsBeforeRev]
    exact N.ordPres this
  have hclosed : ∀ x ∈ out, ∀ d ∈ depsOf reg x, d ∈ out := by
    intro x hx d hd
    have := depsBeforeRev_closed hrev x (List.mem_reverse.mpr hx) d hd
    exact List.mem_reverse.mp this
  refine ⟨N.memName, ?_, hnd, hclosed, ordered_out hrev hnd, ?_⟩
  · intro x hx
    rcases N.reachNew x hx with h1 | h1
    · exact absurd h1 (List.not_mem_nil x)
    · exact h1
  · intro x hx
    rcases N.presentNew x hx with h1 | h1 | h1
    · exact absurd h1 (List.not_mem_nil x)
    · exact Or.inl h1
    · exact Or.inr h1

theorem resolve_ok_complete {reg : Registry} {t : String} {out : List String}
    (h : resolveDependencies reg t = Except.ok out) :
    ∀ x, Reach reg t x → x ∈ out := by
  obtain ⟨hmem, _, _, hclosed, _, _⟩ := resolve_ok_props h
  intro x hx
  induction hx with
  | refl => exact hmem
  | tail _ hstep ih => exact hclosed _ ih _ hstep

theorem resolve_ok_no_cycle {reg : Registry} {t : String} {out : List String}
    (h : resolveDependencies reg t = Except.ok out) :
    ∀ c, Reach reg t c → ¬ Relation.TransGen (edge reg) c c := by
  obtain ⟨_, _, _, hclosed, hord, _⟩ := resolve_ok_props h
  intro c hr hcyc
  exact no_cycle_of_ordered hclosed hord hcyc (resolve_ok_complete h c hr)

/-- The output of a successful resolution ends with the target, which
occurs nowhere earlier. -/
theorem resolve_ok_last {reg : Registry} {t : String} {out : List String}
    (h : resolveDependencies reg t = Except.ok out) :
    ∃ pre, out = pre ++ [t] ∧ t ∉ pre := by
  have hcp := resolveDependencies_ok h
  rcases hcp with ⟨vis', hn⟩
  have hfuel : reg.length + 1 = reg.length + 1 := rfl
  rw [show reg.length + 1 = Nat.succ reg.length from rfl] at hn
  simp only [resolveNode] at hn
  have hv : t ∉ ([] : List String) := List.not_mem_nil t
  rw [if_neg hv] at hn
  cases hl : lookupS reg t with
  | none =>
      simp only [hl] at hn
      obtain ⟨h1, _⟩ : pushUnique [] t = out ∧ t :: [] = vis' := by
        constructor <;> injection hn with h' <;> simp_all
      refine ⟨[], ?_, List.not_mem_nil t⟩
      rw [← h1]
      simp [pushUnique]
  | some svc =>
      simp only [hl] at hn
      cases hla : resolveListAux reg (resolveNode reg reg.length)
          svc.unit.dependencies [] [t] with
      | error e => simp only [hla] at hn; exact Except.noConfusion hn
      | ok p =>
          obtain ⟨r1, v1⟩ := p
          simp only [hla] at hn
          obtain ⟨h1, _⟩ : pushUnique r1 t = out ∧ v1 = vis' := by
            constructor <;> injection hn with h' <;> simp_all
          have L := listOk_of_nodeOk
            (fun n r v r' v' hh => nodeOk reg.length n r v r' v' hh)
            svc.unit.dependencies [] [t] r1 v1 hla
          have hnr1 : t ∉ r1 := by
            intro htr1
            rcases L.reachNew t htr1 with h2 | ⟨d, hd, hr⟩
            · exact List.not_mem_nil t h2
            · have hedge : edge reg t (stripService d) := by
                simp only [edge, depsOf, hl]
                exact List.mem_map_of_mem _ hd
              have hcyc : Relation.TransGen (edge reg) t t :=
                Relation.TransGen.head' hedge hr
              have hnd1 : r1.Nodup := L.nodupPres List.nodup_nil
              have hrev1 : DepsBeforeRev reg r1.reverse := by
                have : DepsBeforeRev reg (([] : List String).reverse) := by
                  simp [DepsBeforeRev]
                exact L.ordPres this
              have hclosed1 : ∀ x ∈ r1, ∀ d' ∈ depsOf reg x, d' ∈ r1 := by
                intro x hx d' hd'
                have := depsBeforeRev_closed hrev1 x (List.mem_reverse.mpr hx) d' hd'
                exact List.mem_reverse.mp this
              exact no_cycle_of_ordered hclosed1 (ordered_out hrev1 hnd1)
                hcyc htr1
          refine ⟨r1, ?_, hnr1⟩
          rw [← h1]
          simp [pushUnique, hnr1]

/-! ### Closed registries: reachable names stay registered -/

theorem globalClosed_reach_present {reg : Registry} (hc : GlobalClosed reg)
    {t x : String} (ht : (lookupS reg t).isSome = true) (hr : Reach reg t x) :
    (lookupS reg x).isSome = true := by
  induction hr with
  | refl => exact ht
  | tail _ hstep ih =>
      rename_i b c _
      cases hb : lookupS reg b with
      | none => rw [hb] at ih; exact absurd ih (by simp)
      | some svc =>
          have hmem : (b, svc) ∈ reg := lookupS_mem hb
          exact hc (b, svc) hmem c hstep

/-- Under a closed registry, a registered target resolves successfully or
reports `DependencyCycle`. -/
theorem resolve_closed_cases {reg : Registry} {t : String}
    (ht : (lookupS reg t).isSome = true) (hc : GlobalClosed reg) :
    (∃ out, resolveDependencies reg t = Except.ok out) ∨
      resolveDependencies reg t = Except.error DiakonosError.DependencyCycle := by
  cases hres : resolveDependencies reg t with
  | ok out => exact Or.inl ⟨out, rfl⟩
  | error e =>
      rcases resolveDependencies_err hres with ⟨he, hnone⟩ | ⟨_, hn⟩
      · rw [hnone] at ht; exact absurd ht (by simp)
      · rcases nodeErr (reg.length + 1) t [] [] e hn with h1 | h1 | ⟨x, hx, hlx, hr⟩
        · subst h1
          exact absurd hres resolveDependencies_no_fuel
        · subst h1; exact Or.inr rfl
        · have := globalClosed_reach_present hc ht hr
          rw [hlx] at this
          exact absurd this (by simp)

/-- Rewriting a binding with the value the lookup already found leaves the
registry unchanged. -/
theorem updateS_self {reg : Registry} {n : String} {v : Service}
    (h : lookupS reg n = some v) : updateS reg n v = reg := by
  induction reg with
  | nil => rfl
  | cons p rest ih =>
      obtain ⟨k, w⟩ := p
      by_cases hk : k = n
      · subst hk
        simp [lookupS] at h
        simp [updateS, h]
      · simp [lookupS, hk] at h
        simp [updateS, hk, ih h]

/-! ### Concrete fixtures used by witnesses and counterexamples -/

/-- A minimal well-formed unit file. -/
def webUnit : UnitFile :=
  { unit := {}
    service := { exec_start := "/bin/sleep 60" }
    name := "web" }

/-- A freshly loaded (`Stopped`) record with the given `requires` and
`wants` lists. -/
def sampleService (reqs wants : List String) : Service :=
  Service.new
    { unit := { requires := some reqs, wants := some wants }
      service := { exec_start := "/bin/sleep 60" }
      name := "sample" }

/-- The diamond-dependency registry `a→b, a→c, b→d, c→d` from the spec's
design note (with one dependency spelled with the `.service` suffix). -/
def diamondReg : Registry :=
  [("a", sampleService ["b", "c"] []), ("b", sampleService ["d.service"] []),
   ("c", sampleService ["d"] []), ("d", sampleService [] [])]

/-- The two-cycle registry of scenario S3: `a` requires `b`, `b` requires
`a`. -/
def cycReg : Registry :=
  [("a", sampleService ["b"] []), ("b", sampleService ["a"] [])]

/-- A target on a cycle whose unit also requires a missing name first. -/
def cycMissReg : Registry := [("t", sampleService ["m", "t"] [])]

/-- A target with a missing `requires` entry and a missing `wants` entry. -/
def twoMissReg : Registry := [("a", sampleService ["m1"] ["m2"])]

/-- A spawn oracle whose children always start with pid 42. -/
def spawnOk : SpawnOracle := fun _ => Except.ok 42

/-- A spawn oracle that always fails. -/
def spawnFail : SpawnOracle := fun _ => Except.error "boom"

/-- A record tracking a live child. -/
def runningService : Service :=
  { unit := webUnit
    state := ServiceState.Running
    pid := some 7
    process := some 7
    restart_count := 0 }

/-! ### C1 -/

/-- C1 counterexample: on a spawn failure `Service::start` returns
`StartError("boom")` but leaves the record in `Starting`, not `Failed`. -/
theorem c1_counterexample :
    (Service.start spawnFail (Service.new webUnit)).1.state =
      ServiceState.Starting ∧
    (Service.start spawnFail (Service.new webUnit)).1.state ≠
      ServiceState.Failed ∧
    (Service.start spawnFail (Service.new webUnit)).2 =
      Except.error (DiakonosError.StartError "boom") := by
  refine ⟨rfl, ?_, rfl⟩
  intro h
  rw [show (Service.start spawnFail (Service.new webUnit)).1.state =
    ServiceState.Starting from rfl] at h
  exact ServiceState.noConfusion h

/-- C1 (amended): when the spawn of a non-empty `ExecStart` fails,
`start_one` returns `StartError` carrying the cause and leaves the record
with `state = Starting` and `pid`/child handle untouched (so still clear
if they were clear before). -/
theorem c1_spawn_failure_leaves_starting (sp : SpawnOracle) (s : Service)
    (msg : String)
    (hst : s.state ≠ ServiceState.Running)
    (hparts : tokenize s.unit.service.exec_start ≠ [])
    (hsp : sp (tokenize s.unit.service.exec_start) = Except.error msg) :
    Service.start sp s =
      ({ s with state := ServiceState.Starting },
        Except.error (DiakonosError.StartError msg)) := by
  unfold Service.start
  rw [if_neg hst]
  simp only [if_neg hparts, hsp]

/-- C1 witness. -/
theorem c1_witness :
    Service.start spawnFail (Service.new webUnit) =
      ({ Service.new webUnit with state := ServiceState.Starting },
        Except.error (DiakonosError.StartError "boom")) := by
  exact c1_spawn_failure_leaves_starting spawnFail (Service.new webUnit) "boom"
    (by decide) (by decide) rfl

/-! ### C2 -/

/-- C2 counterexample: a running record whose child is observed to have
exited successfully ends in `Stopped` with `pid` cleared but with the
child handle still present, so the invariant `state ∈ {Stopped, Failed} →
handle absent` is not preserved by the reconcile pass. -/
theorem c2_counterexample :
    (Service.check_status (TryWait.exited true) runningService).1.state =
      ServiceState.Stopped ∧
    (Service.check_status (TryWait.exited true) runningService).1.pid = none ∧
    (Service.check_status (TryWait.exited true) runningService).1.process =
      some 7 := ⟨rfl, rfl, rfl⟩

/-- C2 (amended): when the tick observes an exit (success, failure, or
probe error) on a record with a child handle, the state becomes `Stopped`
or `Failed` and `pid` is cleared, but the child handle is retained
unchanged. -/
theorem c2_check_status_retains_handle (s : Service) (tw : TryWait) (hd : Nat)
    (hproc : s.process = some hd)
    (hexit : tw ≠ TryWait.stillRunning) :
    ((Service.check_status tw s).1.state = ServiceState.Stopped ∨
      (Service.check_status tw s).1.state = ServiceState.Failed) ∧
    (Service.check_status tw s).1.pid = none ∧
    (Service.check_status tw s).1.process = some hd := by
  cases tw with
  | exited success =>
      cases success with
      | false => simp [Service.check_status, hproc]
      | true => simp [Service.check_status, hproc]
  | stillRunning => exact absurd rfl hexit
  | probeErr msg => simp [Service.check_status, hproc]

/-- C2 witness. -/
theorem c2_witness :
    ((Service.check_status (TryWait.exited false) runningService).1.state =
        ServiceState.Stopped ∨
      (Service.check_status (TryWait.exited false) runningService).1.state =
        ServiceState.Failed) ∧
    (Service.check_status (TryWait.exited false) runningService).1.pid = none ∧
    (Service.check_status (TryWait.exited false) runningService).1.process =
      some 7 := by
  exact c2_check_status_retains_handle runningService (TryWait.exited false) 7
    rfl (by intro h; exact TryWait.noConfusion h)

/-! ### C3 -/

/-- A failed record with `Restart=on-failure` (scenario S4). -/
def flakyService : Service :=
  { unit :=
      { unit := {}
        service :=
          { exec_start := "/bin/false"
            restart := some RestartPolicy.OnFailure
            restart_sec := some 1 }
        name := "flaky" }
    state := ServiceState.Failed
    pid := none
    process := none
    restart_count := 0 }

def flakyReg : Registry := [("flaky", flakyService)]

/-- C3 counterexample: after one automatic restart actually respawns the
child (`state = Running` again), `restart_count` is still `0`, not `1`. -/
theorem c3_counterexample :
    (lookupS (deferredRestart spawnOk flakyReg "flaky") "flaky").map
      Service.state = some ServiceState.Running ∧
    (lookupS (deferredRestart spawnOk flakyReg "flaky") "flaky").map
      Service.restart_count = some 0 := ⟨rfl, rfl⟩

/-- C3 (amended): no operation of the supervisor ever modifies
`restart_count`: `Service::start` (hence every automatic restart through
the deferred task), `Service::stop` and `Service::check_status` all leave
it unchanged, so it stays at its initial value `0` forever. -/
theorem c3_restart_count_never_incremented (sp : SpawnOracle) (s : Service)
    (tw : TryWait) (reg : Registry) (name : String) :
    (Service.start sp s).1.restart_count = s.restart_count ∧
    (Service.stop s).1.restart_count = s.restart_count ∧
    (Service.check_status tw s).1.restart_count = s.restart_count ∧
    (∀ m svc, lookupS reg m = some svc →
      ∃ svc', lookupS (deferredRestart sp reg name) m = some svc' ∧
        svc'.restart_count = svc.restart_count) := by
  have hstart : ∀ s' : Service, (Service.start sp s').1.restart_count =
      s'.restart_count := by
    intro s'
    unfold Service.start
    split
    · rfl
    · dsimp only
      split
      · rfl
      · cases sp (tokenize s'.unit.service.exec_start) <;> rfl
  refine ⟨hstart s, ?_, ?_, ?_⟩
  · unfold Service.stop
    split <;> rfl
  · unfold Service.check_status
    cases hp : s.process with
    | none => rfl
    | some _ => cases tw with
        | exited success => cases success <;> rfl
        | stillRunning => rfl
        | probeErr msg => rfl
  · intro m svc hm
    unfold deferredRestart
    cases hn : lookupS reg name with
    | none => exact ⟨svc, hm, rfl⟩
    | some svc0 =>
        by_cases hmn : m = name
        · subst hmn
          have heq : svc0 = svc := by
            rw [hn] at hm
            exact (Option.some.inj hm).symm ▸ rfl
          refine ⟨(Service.start sp svc0).1, lookupS_updateS_self hn, ?_⟩
          rw [hstart svc0, heq]
        · exact ⟨svc, by rw [lookupS_updateS_ne hmn]; exact hm, rfl⟩

/-- C3 witness. -/
theorem c3_witness :
    (Service.start spawnOk flakyService).1.restart_count = 0 ∧
    ∃ svc', lookupS (deferredRestart spawnOk flakyReg "flaky") "flaky" =
      some svc' ∧ svc'.restart_count = flakyService.restart_count := by
  have h := c3_restart_count_never_incremented spawnOk flakyService
    (TryWait.exited false) flakyReg "flaky"
  exact ⟨h.1, h.2.2.2 "flaky" flakyService rfl⟩

/-! ### C4 -/

/-- C4: whenever the resolver succeeds on a target, the returned list
contains exactly the names reachable from the target along activation
edges (so every transitive activation dependency), each exactly once
(`Nodup`), ends with the target itself, and places every activation
dependency of every element at a strictly smaller index. -/
theorem c4_resolver_topological_order {reg : Registry} {t : String}
    {out : List String} (h : resolveDependencies reg t = Except.ok out) :
    (∀ x, Reach reg t x → x ∈ out) ∧
    (∀ x ∈ out, Reach reg t x) ∧
    out.Nodup ∧
    (∃ pre, out = pre ++ [t] ∧ t ∉ pre) ∧
    (∀ x ∈ out, ∀ d ∈ depsOf reg x, out.indexOf d < out.indexOf x) := by
  obtain ⟨_, hreach, hnd, _, hord, _⟩ := resolve_ok_props h
  exact ⟨resolve_ok_complete h, hreach, hnd, resolve_ok_last h, hord⟩

/-- C4 witness: the diamond registry resolves `a` to `[d, b, c, a]`, and
the theorem instantiates there; e.g. the dependency `d` of `b` sits at a
strictly smaller index. -/
theorem c4_witness :
    resolveDependencies diamondReg "a" = Except.ok ["d", "b", "c", "a"] ∧
    (["d", "b", "c", "a"].indexOf "d" < ["d", "b", "c", "a"].indexOf "b") := by
  refine ⟨rfl, ?_⟩
  have hres : resolveDependencies diamondReg "a" =
      Except.ok ["d", "b", "c", "a"] := rfl
  have h := c4_resolver_topological_order hres
  exact h.2.2.2.2 "b" (by decide) "d" (by decide)

/-! ### C5 -/

/-- C5 counterexample: in `cycMissReg` the target `t` lies on a cycle
(`t` requires `t`), yet the resolver reports `DependencyNotMet "m"` (the
missing name is walked first), not `DependencyCycle` — so "exactly when"
fails as stated. -/
theorem c5_counterexample :
    Relation.TransGen (edge cycMissReg) "t" "t" ∧
    resolveDependencies cycMissReg "t" =
      Except.error (DiakonosError.DependencyNotMet "m") ∧
    resolveDependencies cycMissReg "t" ≠
      Except.error DiakonosError.DependencyCycle := by
  refine ⟨Relation.TransGen.single (by decide), rfl, ?_⟩
  intro hcon
  rw [show resolveDependencies cycMissReg "t" =
    Except.error (DiakonosError.DependencyNotMet "m") from rfl] at hcon
  exact DiakonosError.noConfusion (Except.error.inj hcon)

/-- C5 (amended): provided every dependency of every registered unit is
itself registered, the resolver reports `DependencyCycle` exactly when the
graph reachable from the (registered) target contains a cycle; and the
diamond `a→b, a→c, b→d, c→d` resolves without any spurious cycle report —
the `resolved`-membership check already protects shared dependencies, so
the persistent `visited` set causes no spurious `DependencyCycle`. -/
theorem c5_cycle_iff_closed :
    (∀ (reg : Registry) (t : String), (lookupS reg t).isSome = true →
      GlobalClosed reg →
      (resolveDependencies reg t = Except.error DiakonosError.DependencyCycle ↔
        ∃ c, Reach reg t c ∧ Relation.TransGen (edge reg) c c)) ∧
    resolveDependencies diamondReg "a" = Except.ok ["d", "b", "c", "a"] := by
  constructor
  · intro reg t ht hc
    constructor
    · intro h
      rcases resolveDependencies_err h with ⟨he, hnone⟩ | ⟨_, hn⟩
      · exact absurd he (fun hh => DiakonosError.noConfusion hh)
      · exact nodeCyc (reg.length + 1) t [] [] hn (List.not_mem_nil t)
          (fun v hv => absurd hv (List.not_mem_nil v))
    · rintro ⟨c, hr, hcyc⟩
      rcases resolve_closed_cases ht hc with ⟨out, hout⟩ | hcycres
      · exact absurd hcyc (resolve_ok_no_cycle hout c hr)
      · exact hcycres
  · rfl

/-- C5 witness: the closed two-cycle registry of scenario S3 reports
`DependencyCycle`, through the amended equivalence. -/
theorem c5_witness :
    resolveDependencies cycReg "a" =
      Except.error DiakonosError.DependencyCycle :=
  (c5_cycle_iff_closed.1 cycReg "a" (by decide) (by decide)).mpr
    ⟨"a", Relation.ReflTransGen.refl,
      Relation.TransGen.head (show edge cycReg "a" "b" by decide)
        (Relation.TransGen.single (show edge cycReg "b" "a" by decide))⟩

/-! ### C6 -/

/-- C6 counterexample: in `cycMissReg` the target `t` lies on a cycle, but
`start(t)` returns `DependencyNotMet "m"`, not `DependencyCycle` (the
registry is still left unmutated). -/
theorem c6_counterexample :
    Relation.TransGen (edge cycMissReg) "t" "t" ∧
    (startService spawnOk cycMissReg "t").2 =
      Except.error (DiakonosError.DependencyNotMet "m") ∧
    (startService spawnOk cycMissReg "t").2 ≠
      Except.error DiakonosError.DependencyCycle := by
  refine ⟨Relation.TransGen.single (by decide), rfl, ?_⟩
  intro hcon
  rw [show (startService spawnOk cycMissReg "t").2 =
    Except.error (DiakonosError.DependencyNotMet "m") from rfl] at hcon
  exact DiakonosError.noConfusion (Except.error.inj hcon)

/-- C6 (amended): when the activation graph contains a cycle through the
target, `start(target)` returns an error and leaves every service record
untouched (the registry is returned unchanged, so every state, pid, child
handle and restart counter is unchanged); the error is `DependencyCycle`
whenever every dependency of every registered unit is itself registered,
and otherwise may be `DependencyNotMet` for a missing name encountered
first. -/
theorem c6_cycle_start_unchanged (sp : SpawnOracle) (reg : Registry)
    (t : String) (hcyc : Relation.TransGen (edge reg) t t) :
    (startService sp reg t).1 = reg ∧
    (startService sp reg t).2 ≠ Except.ok () ∧
    (GlobalClosed reg →
      (startService sp reg t).2 =
        Except.error DiakonosError.DependencyCycle) := by
  cases hres : resolveDependencies reg t with
  | ok out =>
      exact absurd hcyc
        (resolve_ok_no_cycle hres t Relation.ReflTransGen.refl)
  | error e =>
      have hstart : startService sp reg t = (reg, Except.error e) := by
        unfold startService
        rw [hres]
      refine ⟨by rw [hstart], by rw [hstart]; exact fun hh => Except.noConfusion hh, ?_⟩
      intro hc
      have ht : (lookupS reg t).isSome = true := by
        have hex : ∃ y, edge reg t y := by
          rcases (Relation.TransGen.head'_iff.mp hcyc) with ⟨y, hy, _⟩
          exact ⟨y, hy⟩
        rcases hex with ⟨y, hy⟩
        simp only [edge, depsOf] at hy
        cases hl : lookupS reg t with
        | none => simp only [hl] at hy; exact absurd hy (List.not_mem_nil y)
        | some svc => simp
      rcases resolve_closed_cases ht hc with ⟨out, hout⟩ | hcy
      · rw [hout] at hres; exact Except.noConfusion hres
      · rw [hcy] at hres
        rw [hstart]
        injection hres with h'
        rw [h']

/-- C6 witness: in the closed two-cycle registry, `start("a")` leaves the
registry unmutated and returns `DependencyCycle`. -/
theorem c6_witness :
    (startService spawnOk cycReg "a").1 = cycReg ∧
    (startService spawnOk cycReg "a").2 =
      Except.error DiakonosError.DependencyCycle := by
  have h := c6_cycle_start_unchanged spawnOk cycReg "a"
    (Relation.TransGen.head (show edge cycReg "a" "b" by decide)
      (Relation.TransGen.single (show edge cycReg "b" "a" by decide)))
  exact ⟨h.1, h.2.2 (by decide)⟩

/-! ### C7 -/

/-- A record left in `Stopped` by the reconcile pass with the child handle
still attached (exactly the state `check_status` produces, see C2). -/
def leakedStopped : Service :=
  { unit := webUnit
    state := ServiceState.Stopped
    pid := none
    process := some 7
    restart_count := 0 }

def leakReg : Registry := [("web", leakedStopped)]

/-- C7 counterexample: `stop` on a record that is already `Stopped` but
still holds a child handle returns `Ok` immediately and retains the
handle, so "no child handle is retained after `stop`" fails. -/
theorem c7_counterexample :
    (stopService leakReg "web").2 = Except.ok () ∧
    lookupS (stopService leakReg "web").1 "web" = some leakedStopped ∧
    leakedStopped.process = some 7 := ⟨rfl, rfl, rfl⟩

/-- C7 (amended): for every registered service, `stop` returns `Ok`
(signal failures never fail it); when the record was not already
`Stopped`, it afterwards is `Stopped` with `pid` cleared and no child
handle; when it was already `Stopped`, it is returned untouched — in
particular a handle leaked by the reconcile pass stays retained. -/
theorem c7_stop_ok_and_stopped (reg : Registry) (name : String) (svc : Service)
    (h : lookupS reg name = some svc) :
    (stopService reg name).2 = Except.ok () ∧
    (svc.state ≠ ServiceState.Stopped →
      lookupS (stopService reg name).1 name =
        some { svc with
          state := ServiceState.Stopped, pid := none, process := none }) ∧
    (svc.state = ServiceState.Stopped → (stopService reg name).1 = reg) := by
  have hsvc : stopService reg name =
      (updateS reg name (Service.stop svc).1, (Service.stop svc).2) := by
    unfold stopService
    rw [h]
  by_cases hst : svc.state = ServiceState.Stopped
  · have hstop : Service.stop svc = (svc, Except.ok ()) := by
      unfold Service.stop
      rw [if_pos hst]
    rw [hsvc, hstop]
    exact ⟨rfl, fun hne => absurd hst hne, fun _ => updateS_self h⟩
  · have hstop : Service.stop svc =
        ({ svc with state := ServiceState.Stopped, pid := none, process := none },
          Except.ok ()) := by
      unfold Service.stop
      rw [if_neg hst]
    rw [hsvc, hstop]
    exact ⟨rfl, fun _ => lookupS_updateS_self h, fun hs => absurd hs hst⟩

/-- C7 witness: stopping a `Running` record registered under `web`. -/
theorem c7_witness :
    (stopService [("web", runningService)] "web").2 = Except.ok () ∧
    lookupS (stopService [("web", runningService)] "web").1 "web" =
      some { runningService with
        state := ServiceState.Stopped, pid := none, process := none } := by
  have h := c7_stop_ok_and_stopped [("web", runningService)] "web"
    runningService rfl
  exact ⟨h.1, h.2.1 (by intro hh; exact ServiceState.noConfusion hh)⟩

/-! ### C8 -/

/-- C8 counterexample: in `twoMissReg`, `m2` (a missing `wants` entry) is
a transitive activation dependency of `a` and is not in the registry, yet
the resolver fails with `DependencyNotMet "m1"` — the first missing name
walked — not with `DependencyNotMet "m2"`. -/
theorem c8_counterexample :
    edge twoMissReg "a" "m2" ∧
    lookupS twoMissReg "m2" = none ∧
    resolveDependencies twoMissReg "a" =
      Except.error (DiakonosError.DependencyNotMet "m1") ∧
    resolveDependencies twoMissReg "a" ≠
      Except.error (DiakonosError.DependencyNotMet "m2") := by
  refine ⟨by decide, rfl, rfl, ?_⟩
  intro hcon
  rw [show resolveDependencies twoMissReg "a" =
    Except.error (DiakonosError.DependencyNotMet "m1") from rfl] at hcon
  have h1 := Except.error.inj hcon
  have h2 : "m1" = "m2" := by
    injection h1
  exact absurd h2 (by decide)

/-- C8 (amended): when some name reachable along activation edges (through
`requires` and `wants` alike, with the `.service` suffix stripped) is not
registered, the resolver never succeeds; every `DependencyNotMet(x)` it
reports names an unregistered reachable name; and it reports either
`DependencyCycle` (when a cycle is walked first) or `DependencyNotMet(x)`
for some unregistered reachable `x` — which missing name is reported
depends on the depth-first walk order, not on the instantiated `d`. -/
theorem c8_missing_dep_fails {reg : Registry} {t d : String}
    (ht : (lookupS reg t).isSome = true)
    (hreach : Reach reg t d) (hmiss : lookupS reg d = none) :
    (∀ out, resolveDependencies reg t ≠ Except.ok out) ∧
    (∀ x, resolveDependencies reg t =
        Except.error (DiakonosError.DependencyNotMet x) →
      lookupS reg x = none ∧ Reach reg t x) ∧
    (resolveDependencies reg t = Except.error DiakonosError.DependencyCycle ∨
      ∃ x, resolveDependencies reg t =
          Except.error (DiakonosError.DependencyNotMet x) ∧
        lookupS reg x = none ∧ Reach reg t x) := by
  have hfail : ∀ out, resolveDependencies reg t ≠ Except.ok out := by
    intro out hok
    have hd : d ∈ out := resolve_ok_complete hok d hreach
    obtain ⟨_, _, _, _, _, hpres⟩ := resolve_ok_props hok
    rcases hpres d hd with h1 | h1
    · subst h1
      rw [hmiss] at ht
      exact Bool.noConfusion ht
    · rw [hmiss] at h1
      exact Bool.noConfusion h1
  have hnotmet : ∀ x, resolveDependencies reg t =
      Except.error (DiakonosError.DependencyNotMet x) →
      lookupS reg x = none ∧ Reach reg t x := by
    intro x h
    rcases resolveDependencies_err h with ⟨he, _⟩ | ⟨_, hn⟩
    · exact absurd he (fun hh => DiakonosError.noConfusion hh)
    · rcases nodeErr (reg.length + 1) t [] [] _ hn with h1 | h1 | ⟨x', hx', hlx, hr⟩
      · exact absurd h1 (fun hh => DiakonosError.noConfusion hh)
      · exact absurd h1 (fun hh => DiakonosError.noConfusion hh)
      · cases DiakonosError.DependencyNotMet.inj hx'
        exact ⟨hlx, hr⟩
  refine ⟨hfail, hnotmet, ?_⟩
  cases hres : resolveDependencies reg t with
  | ok out => exact absurd hres (hfail out)
  | error e =>
      rcases resolveDependencies_err hres with ⟨he, hnone⟩ | ⟨_, hn⟩
      · subst he
        rw [hnone] at ht
        exact Bool.noConfusion ht
      · rcases nodeErr (reg.length + 1) t [] [] _ hn with h1 | h1 | ⟨x, hx, hlx, hr⟩
        · subst h1
          exact absurd hres resolveDependencies_no_fuel
        · subst h1
          exact Or.inl rfl
        · subst hx
          exact Or.inr ⟨x, rfl, hlx, hr⟩

/-- C8 witness: instantiating at `twoMissReg` with the reachable missing
name `m1` shows the reported name is missing and reachable. -/
theorem c8_witness :
    lookupS twoMissReg "m1" = none ∧ Reach twoMissReg "a" "m1" := by
  have h := c8_missing_dep_fails
    (show (lookupS twoMissReg "a").isSome = true by decide)
    (Relation.ReflTransGen.single (show edge twoMissReg "a" "m1" by decide))
    (show lookupS twoMissReg "m1" = none from rfl)
  exact h.2.1 "m1" rfl

/-! ### C9 -/

/-- A record caught mid-stop. -/
def stoppingService : Service :=
  { unit := webUnit
    state := ServiceState.Stopping
    pid := none
    process := none
    restart_count := 0 }

def stoppingReg : Registry := [("web", stoppingService)]

/-- C9 counterexample: the deferred-restart task finds the record in
`Stopping` (neither `Stopped` nor `Failed`) and nevertheless starts a new
child: afterwards the record is `Running` with a fresh pid and handle. -/
theorem c9_counterexample :
    lookupS (deferredRestart spawnOk stoppingReg "web") "web" =
      some { stoppingService with
        state := ServiceState.Running, pid := some 42, process := some 42 } := rfl

/-- C9 (amended): the deferred task re-reads the record and invokes
`Service::start` unconditionally; the only state in which no child is
spawned is `Running` (start's own early return).  In every other state —
including `Starting` and `Stopping` — a successful spawn installs a new
child. -/
theorem c9_deferred_restart_unconditional (sp : SpawnOracle) (reg : Registry)
    (name : String) (svc : Service) (childId : Nat)
    (h : lookupS reg name = some svc) :
    (svc.state = ServiceState.Running → deferredRestart sp reg name = reg) ∧
    (svc.state ≠ ServiceState.Running →
      tokenize svc.unit.service.exec_start ≠ [] →
      sp (tokenize svc.unit.service.exec_start) = Except.ok childId →
      lookupS (deferredRestart sp reg name) name =
        some { svc with
          state := ServiceState.Running
          pid := some childId
          process := some childId }) := by
  have hdr : deferredRestart sp reg name = updateS reg name (Service.start sp svc).1 := by
    unfold deferredRestart
    rw [h]
  constructor
  · intro hrun
    have hstart : Service.start sp svc = (svc, Except.ok ()) := by
      unfold Service.start
      rw [if_pos hrun]
    rw [hdr, hstart]
    exact updateS_self h
  · intro hrun hparts hsp
    have hstart : Service.start sp svc =
        ({ svc with
            state := ServiceState.Running
            pid := some childId
            process := some childId }, Except.ok ()) := by
      unfold Service.start
      rw [if_neg hrun]
      simp only [if_neg hparts, hsp]
    rw [hdr, hstart]
    exact lookupS_updateS_self h

/-- C9 witness: a `Failed` record is (legitimately) restarted, and the
record in `Stopping` also gets a fresh child, both through the amended
theorem. -/
theorem c9_witness :
    lookupS (deferredRestart spawnOk flakyReg "flaky") "flaky" =
      some { flakyService with
        state := ServiceState.Running, pid := some 42, process := some 42 } ∧
    lookupS (deferredRestart spawnOk stoppingReg "web") "web" =
      some { stoppingService with
        state := ServiceState.Running, pid := some 42, process := some 42 } := by
  constructor
  · exact (c9_deferred_restart_unconditional spawnOk flakyReg "flaky"
      flakyService 42 rfl).2
      (by intro hh; exact ServiceState.noConfusion hh) (by decide) rfl
  · exact (c9_deferred_restart_unconditional spawnOk stoppingReg "web"
      stoppingService 42 rfl).2
      (by intro hh; exact ServiceState.noConfusion hh) (by decide) rfl

/-! ### C10 -/

/-- C10: `load(name)` is atomic on the registry: any error leaves the
mapping untouched; success requires the name to have been absent and adds
exactly one binding, a fresh `Stopped` record with no pid, no child handle
and `restart_count = 0`, leaving every other name's binding unchanged. -/
theorem c10_load_atomic (fs : FsOracle) (reg : Registry) (name : String) :
    (∀ e, (loadService fs reg name).2 = Except.error e →
      (loadService fs reg name).1 = reg) ∧
    ((loadService fs reg name).2 = Except.ok () →
      lookupS reg name = none ∧
      ∃ u, fs name = some (Except.ok u) ∧
        (loadService fs reg name).1 = (name, Service.new u) :: reg ∧
        lookupS ((name, Service.new u) :: reg) name = some (Service.new u) ∧
        (Service.new u).state = ServiceState.Stopped ∧
        (Service.new u).pid = none ∧
        (Service.new u).process = none ∧
        (Service.new u).restart_count = 0 ∧
        (∀ m, m ≠ name →
          lookupS ((name, Service.new u) :: reg) m = lookupS reg m)) := by
  unfold loadService
  cases hfs : fs name with
  | none => exact ⟨fun e _ => rfl, fun hok => Except.noConfusion hok⟩
  | some res =>
      cases res with
      | error e => exact ⟨fun e' _ => rfl, fun hok => Except.noConfusion hok⟩
      | ok u =>
          dsimp only
          by_cases hdup : (lookupS reg name).isSome = true
          · rw [if_pos hdup]
            exact ⟨fun e' _ => rfl, fun hok => Except.noConfusion hok⟩
          · rw [if_neg hdup]
            refine ⟨fun e' he => Except.noConfusion he, fun _ => ?_⟩
            have hnone : lookupS reg name = none :=
              Option.not_isSome_iff_eq_none.mp hdup
            refine ⟨hnone, u, rfl, rfl, ?_, rfl, rfl, rfl, rfl, ?_⟩
            · simp [lookupS]
            · intro m hm
              have hnm : ¬ (name = m) := fun hh => hm hh.symm
              simp [lookupS, hnm]

/-- C10 filesystem oracle fixture: exactly one unit file, `web.service`. -/
def fsWeb : FsOracle :=
  fun n => if n = "web" then some (Except.ok webUnit) else none

/-- C10 witness: loading an absent name leaves the empty registry
untouched, and loading `web` into the empty registry inserts exactly the
fresh record. -/
theorem c10_witness :
    (loadService fsWeb [] "nope").1 = ([] : Registry) ∧
    (loadService fsWeb [] "web").1 = [("web", Service.new webUnit)] ∧
    lookupS ([] : Registry) "web" = none := by
  refine ⟨(c10_load_atomic fsWeb [] "nope").1
    (DiakonosError.ServiceNotFound "nope") rfl, ?_, ?_⟩
  · rcases (c10_load_atomic fsWeb [] "web").2 rfl with
      ⟨_, u, hu, hcons, _⟩
    have hueq : u = webUnit := by
      rw [show fsWeb "web" = some (Except.ok webUnit) from rfl] at hu
      exact (Except.ok.inj (Option.some.inj hu)).symm
    rw [hcons, hueq]
  · exact ((c10_load_atomic fsWeb [] "web").2 rfl).1
